import Mathlib

/-!
Shallow embedding of `etc/release/utils_requirements.py` (scancode-toolkit
release utilities) and verification of its specification claims.

Text is modelled as `List Char` (ASCII fragment of Python `str`); machine
whitespace semantics follow Python's `str.strip` / `str.split` on the ASCII
whitespace characters.  Fallible operations return `Except` values whose
error component models the raised Python exception message.
-/

/-- Characters Python treats as whitespace for `strip`/`split` (ASCII part). -/
def isPySpace (c : Char) : Bool :=
  c = ' ' || c = '\t' || c = '\n' || c = '\x0d' || c = '\x0b' || c = '\x0c'

/-- Convenience conversion from a Lean string literal to our text model. -/
def strList (s : String) : List Char := s.data

/-- Python `str.strip()` with no arguments: drop leading and trailing
whitespace. -/
def pyStrip (l : List Char) : List Char :=
  ((l.dropWhile isPySpace).reverse.dropWhile isPySpace).reverse

/-- The upper-case/lower-case letter pairs of the ASCII alphabet. -/
def lowerPairs : List (Char × Char) :=
  [('A', 'a'), ('B', 'b'), ('C', 'c'), ('D', 'd'), ('E', 'e'), ('F', 'f'),
   ('G', 'g'), ('H', 'h'), ('I', 'i'), ('J', 'j'), ('K', 'k'), ('L', 'l'),
   ('M', 'm'), ('N', 'n'), ('O', 'o'), ('P', 'p'), ('Q', 'q'), ('R', 'r'),
   ('S', 's'), ('T', 't'), ('U', 'u'), ('V', 'v'), ('W', 'w'), ('X', 'x'),
   ('Y', 'y'), ('Z', 'z')]

/-- Replace a character by its image in a substitution table, or keep it. -/
def lookupLower : List (Char × Char) → Char → Char
  | [], c => c
  | p :: t, c => if c = p.1 then p.2 else lookupLower t c

/-- ASCII model of Python `str.lower` on a single character. -/
def lowerChar (c : Char) : Char := lookupLower lowerPairs c

/-- Python `str.lower()` (ASCII model). -/
def pyLower (l : List Char) : List Char := l.map lowerChar

/-- Python `str.splitlines(False)`: split on line boundaries (`\n`, `\r`,
`\r\n`), not keeping the line ends and producing no trailing empty line for a
terminal newline. -/
def splitlinesPy : List Char → List (List Char) :=
  go []
where
  /-- Accumulates the current (reversed) line while scanning. -/
  go : List Char → List Char → List (List Char)
  | acc, [] => if acc = [] then [] else [acc.reverse]
  | acc, '\x0d' :: '\n' :: rest => acc.reverse :: go [] rest
  | acc, '\x0d' :: rest => acc.reverse :: go [] rest
  | acc, '\n' :: rest => acc.reverse :: go [] rest
  | acc, c :: rest => go (c :: acc) rest

/-- Python `str.split()` with no arguments: split on runs of whitespace,
discarding empty tokens. -/
def pySplitWs : List Char → List (List Char) :=
  go []
where
  /-- Accumulates the current (reversed) token while scanning. -/
  go : List Char → List Char → List (List Char)
  | acc, [] => if acc = [] then [] else [acc.reverse]
  | acc, c :: rest =>
    if isPySpace c then
      if acc = [] then go [] rest else acc.reverse :: go [] rest
    else go (c :: acc) rest

/-- Whether the text contains the substring `==` (Python `'==' in s`). -/
def hasEqEq : List Char → Bool
  | [] => false
  | [_] => false
  | a :: b :: t => (a = '=' && b = '=') || hasEqEq (b :: t)

/-- Split at the first occurrence of `==`, returning the parts before and
after it, or `none` when the separator is absent. -/
def splitOnEqEq : List Char → Option (List Char × List Char)
  | [] => none
  | [_] => none
  | a :: b :: t =>
    if a = '=' ∧ b = '=' then some ([], t)
    else (splitOnEqEq (b :: t)).map (fun p => (a :: p.1, p.2))

/-- Python `s.partition('==')` restricted to the (before, after) parts: when
the separator is absent the whole text is the first part and the second is
empty. -/
def partitionEqEq (l : List Char) : List Char × List Char :=
  match splitOnEqEq l with
  | some p => p
  | none => (l, [])

instance {ε α : Type} [DecidableEq ε] [DecidableEq α] : DecidableEq (Except ε α) := fun a b =>
  match a, b with
  | .ok x, .ok y =>
    if h : x = y then .isTrue (by rw [h]) else .isFalse (fun he => by cases he; exact h rfl)
  | .error x, .error y =>
    if h : x = y then .isTrue (by rw [h]) else .isFalse (fun he => by cases he; exact h rfl)
  | .ok _, .error _ => .isFalse (fun he => by cases he)
  | .error _, .ok _ => .isFalse (fun he => by cases he)

/-- A parsed requirement: package name and pinned version.  The version is
`Option` because the function's documentation promises `None` for unpinned
requirements (the `absent` marker). -/
abbrev ReqPair : Type := List Char × Option (List Char)

/-- Embedding of `get_required_name_versions(requirement_lines, force_pinned)`:
for each line, strip it, skip blank and `#`-comment lines, raise when pinning
is forced and the line has no `==`, otherwise partition on the first `==` and
yield the lower-cased, stripped name and version.  The generator is modelled
as the fully consumed sequence: an error anywhere poisons the whole result,
as it does for the comprehensions that consume it in the source. -/
def get_required_name_versions : List (List Char) → Bool → Except (List Char) (List ReqPair)
  | [], _ => .ok []
  | line :: rest, force_pinned =>
    let r := pyStrip line
    if r = [] ∨ r.head? = some '#' then
      get_required_name_versions rest force_pinned
    else if hasEqEq r = false ∧ force_pinned = true then
      .error (strList "Requirement version is not pinned: " ++ r)
    else
      match get_required_name_versions rest force_pinned with
      | .error e => .error e
      | .ok ps =>
        .ok ((pyStrip (pyLower (partitionEqEq r).1),
              some (pyStrip (pyLower (partitionEqEq r).2))) :: ps)

/-- Embedding of `load_requirements(requirements_file, force_pinned)`: read
the file's text, split it into lines and parse them.  The file content is
passed explicitly in place of the file path. -/
def load_requirements (content : List Char) (force_pinned : Bool) :
    Except (List Char) (List ReqPair) :=
  get_required_name_versions (splitlinesPy content) force_pinned

/-- Embedding of `parse_requires(requires)`: keep the non-empty lines of the
text; if none remain return `[]`; else keep the lines that are non-blank,
remove all whitespace inside each (`''.join(r.split())`) and sort. -/
def parse_requires (requires : List Char) : List (List Char) :=
  let requires1 := (splitlinesPy requires).filter (fun c => c ≠ [])
  if requires1 = [] then []
  else
    pySorted ((requires1.filter (fun r => r ≠ [] ∧ pyStrip r ≠ [])).map
      (fun r => (pySplitWs r).flatten))
where
  /-- Model of Python `sorted` on lists of strings: insertion sort (a stable
  sort, as Python's) by code-point lexicographic order. -/
  pySorted (ls : List (List Char)) : List (List Char) :=
    List.insertionSort (fun a b => ¬ List.Lex (· < ·) b a) ls

/-- A parsed INI configuration: sections, each holding (option, value)
pairs.  This is the state of a `configparser.ConfigParser` after reading. -/
abbrev IniConfig : Type := List (List Char × List (List Char × List Char))

/-- Look an option up in a section of a parsed configuration, as
`ConfigParser.get(section, option, fallback=...)` but returning `none` in
place of the fallback. -/
def configGetOpt (cfg : IniConfig) (sec opt : List Char) : Option (List Char) :=
  match cfg.find? (fun s => s.1 = sec) with
  | none => none
  | some s =>
    match s.2.find? (fun o => o.1 = opt) with
    | none => none
    | some o => some o.2

/-- Update (or insert) a key in an association list, keeping the key's first
position — the behaviour of assignment into a Python `dict`. -/
def updateDict {α β : Type} [DecidableEq α] : List (α × β) → α → β → List (α × β)
  | [], k, v => [(k, v)]
  | (k', v') :: d, k, v =>
    if k' = k then (k', v) :: d else (k', v') :: updateDict d k v

/-- Embedding of `get_requirements_from_setup_cfg(setup_cfg, extra=None)`.
The source hands the *open file object* to `ConfigParser.read`, which expects
an iterable of file *names*: every line of the metadata file is treated as a
filename to load, and missing ones are silently skipped.  The filesystem is
abstracted as `fsLoad`, mapping a filename to the parsed configuration
`ConfigParser.read` would obtain from it (`none` when no such file exists);
merging is modelled at file granularity with later files overriding.  The
`extra` parameter is never consulted (its only other occurrence in the source
is as the loop variable that shadows it).  Note `config.get('options',
'extras_require', fallback=[])` yields a *string* when present, so the
subsequent `for extra in extras_require` iterates over its characters. -/
def get_requirements_from_setup_cfg (fsLoad : List Char → Option IniConfig)
    (cfgLines : List (List Char)) (_extra : Option (List Char)) :
    List (List Char × List (List Char)) :=
  let config : IniConfig :=
    cfgLines.foldl (fun acc l =>
      match fsLoad l with
      | some c => c ++ acc
      | none => acc) []
  let install_requires := (configGetOpt config (strList "options") (strList "install_requires")).getD []
  let requirements := updateDict [] (strList "install_requires") (parse_requires install_requires)
  let setup_requires := (configGetOpt config (strList "options") (strList "setup_requires")).getD []
  let requirements := updateDict requirements (strList "setup_requires") (parse_requires setup_requires)
  match configGetOpt config (strList "options") (strList "extras_require") with
  | none => requirements
  | some extras_require =>
    extras_require.foldl (fun acc extra =>
      let exreq := (configGetOpt config (strList "options.extras_require") [extra]).getD []
      updateDict acc (strList "extras_require:" ++ [extra]) (parse_requires exreq)) requirements

/-- Outcome of spawning the external `pip freeze` subprocess: the executable
may be missing, or it exits with a code and some stdout text. -/
inductive ProcResult : Type
  | missing
  | exited (code : Nat) (stdout : List Char)

/-- Errors `subprocess.check_output` can raise. -/
inductive SubprocError : Type
  | fileNotFound
  | calledProcessError (code : Nat)

instance : DecidableEq SubprocError := fun a b =>
  match a, b with
  | .fileNotFound, .fileNotFound => .isTrue rfl
  | .calledProcessError m, .calledProcessError n =>
    if h : m = n then .isTrue (by rw [h]) else .isFalse (fun he => by cases he; exact h rfl)
  | .fileNotFound, .calledProcessError _ => .isFalse (fun h => by cases h)
  | .calledProcessError _, .fileNotFound => .isFalse (fun h => by cases h)

/-- Model of `subprocess.check_output(args, encoding='utf-8')`: the decoded
stdout on exit code 0, `CalledProcessError` on a non-zero exit,
`FileNotFoundError` when the executable is absent. -/
def check_output : ProcResult → Except SubprocError (List Char)
  | .missing => .error .fileNotFound
  | .exited 0 out => .ok out
  | .exited (c + 1) _ => .error (.calledProcessError (c + 1))

/-- Embedding of `get_installed_reqs()`: run
`pip freeze --all --exclude-editable` and return its output text.  The
subprocess outcome is passed explicitly in place of the live process. -/
def get_installed_reqs (pipFreeze : ProcResult) : Except SubprocError (List Char) :=
  check_output pipFreeze

/-- Render one `(name, version)` pair as `f'{n}=={v}'` does; a `None` version
would print as the text `None`. -/
def renderReq (p : ReqPair) : List Char :=
  p.1 ++ '=' :: '=' :: (match p.2 with | some v => v | none => strList "None")

/-- Python `'\n'.join(lines)`. -/
def joinNl : List (List Char) → List Char
  | [] => []
  | [l] => l
  | l :: ls => l ++ '\n' :: joinNl ls

/-- Ordering used to model `sorted(dev_only_reqs.items())`: lexicographic on
the `(name, version)` tuple, names compared by code point first. -/
def pairLeB (p q : ReqPair) : Bool :=
  if p.1 = q.1 then
    match p.2, q.2 with
    | none, _ => true
    | some _, none => false
    | some v, some w => decide (¬ List.Lex (· < ·) w v)
  else decide (List.Lex (· < ·) p.1 q.1)

/-- The `pairLeB` order as a relation. -/
def PairLe (p q : ReqPair) : Prop := pairLeB p q = true

instance : DecidableRel PairLe := fun _ _ => inferInstanceAs (Decidable (_ = true))

/-- Build a Python `dict` from a sequence of key/value pairs: first
occurrence fixes the position, later occurrences overwrite the value. -/
def dictOfPairs (l : List ReqPair) : List ReqPair :=
  l.foldl (fun d p => updateDict d p.1 p.2) []

/-- Embedding of `lock_dev_requirements(dev_requirements_file,
main_requirements_file)`.  File paths are replaced by the main manifest's
text and the installed snapshot (the `pip freeze` stdout); the returned value
is the text written to the dev manifest. -/
def lock_dev_requirements (mainContent installedText : List Char) :
    Except (List Char) (List Char) := do
  let mainPairs ← load_requirements mainContent true
  let main_names := mainPairs.map Prod.fst
  let all_reqs ← get_required_name_versions (splitlinesPy installedText) true
  let dev_only_reqs := dictOfPairs (all_reqs.filter (fun p => decide (p.1 ∉ main_names)))
  let new_reqs := joinNl ((List.insertionSort PairLe dev_only_reqs).map renderReq)
  pure new_reqs

/-- Embedding of `lock_requirements(requirements_file)`: the written manifest
is the freeze output verbatim (when the subprocess succeeds). -/
def lock_requirements (pipFreeze : ProcResult) : Except SubprocError (List Char) :=
  get_installed_reqs pipFreeze

/-- Removal of every whitespace character from a text: what the claim calls
"all internal whitespace removed". -/
def rmWs (l : List Char) : List Char := l.filter (fun c => !isPySpace c)

/-- The claim's description of `parse_requires`: the block's lines, each with
all whitespace removed, the non-empty ones kept, sorted lexicographically. -/
def parseRequiresSpec (t : List Char) : List (List Char) :=
  parse_requires.pySorted (((splitlinesPy t).map rmWs).filter (fun r => r ≠ []))

/-- A line the parser must reject under forced pinning: non-blank after
stripping, not a comment, and without the `==` separator. -/
def unpinnedLine (l : List Char) : Prop :=
  pyStrip l ≠ [] ∧ (pyStrip l).head? ≠ some '#' ∧ hasEqEq (pyStrip l) = false

instance (l : List Char) : Decidable (unpinnedLine l) :=
  inferInstanceAs (Decidable (_ ∧ _ ∧ _))

/-- A line the parser neither skips nor may reject: non-blank after stripping
and not a comment. -/
def effectiveLine (l : List Char) : Bool :=
  decide (pyStrip l ≠ [] ∧ (pyStrip l).head? ≠ some '#')

lemma flatten_pySplitWs_go (r : List Char) :
    ∀ acc, (pySplitWs.go acc r).flatten = acc.reverse ++ rmWs r := by
  induction r with
  | nil =>
    intro acc
    by_cases h : acc = [] <;> simp [pySplitWs.go, h, rmWs]
  | cons c rest ih =>
    intro acc
    by_cases hsp : isPySpace c
    · by_cases h : acc = [] <;> simp [pySplitWs.go, hsp, h, ih, rmWs]
    · simp [pySplitWs.go, hsp, ih, rmWs]

/-- Joining the whitespace-split tokens of a text removes exactly its
whitespace: `''.join(r.split())` is whitespace removal. -/
lemma flatten_pySplitWs (r : List Char) : (pySplitWs r).flatten = rmWs r := by
  simpa using flatten_pySplitWs_go r []

/-- A text strips to empty exactly when it is all whitespace. -/
lemma pyStrip_eq_nil_iff (l : List Char) :
    pyStrip l = [] ↔ ∀ c ∈ l, isPySpace c = true := by
  unfold pyStrip
  rw [List.reverse_eq_nil_iff, List.dropWhile_eq_nil_iff]
  constructor
  · intro h c hc
    have hsplit := List.takeWhile_append_dropWhile (p := isPySpace) (l := l)
    rcases List.mem_append.mp (by rw [hsplit]; exact hc) with h1 | h2
    · exact List.mem_takeWhile_imp h1
    · exact h c (List.mem_reverse.mpr h2)
  · intro h c hc
    exact h c ((List.dropWhile_sublist _).subset (List.mem_reverse.mp hc))

/-- Whitespace removal yields empty exactly when the text is all
whitespace. -/
lemma rmWs_eq_nil_iff (l : List Char) :
    rmWs l = [] ↔ ∀ c ∈ l, isPySpace c = true := by
  rw [rmWs, List.filter_eq_nil_iff]
  simp

/-- C7: `parse_requires` returns the block's lines with all whitespace
removed from each, the non-empty results kept, sorted lexicographically; in
particular `"foo >=1\nbar==2"` yields `["bar==2", "foo>=1"]`. -/
theorem C7_parse_requires_normalizes :
    (∀ requires : List Char, parse_requires requires = parseRequiresSpec requires) ∧
    parse_requires (strList "foo >=1\nbar==2") = [strList "bar==2", strList "foo>=1"] := by
  constructor
  · intro t
    unfold parse_requires parseRequiresSpec
    by_cases h : (splitlinesPy t).filter (fun c => decide (c ≠ [])) = []
    · rw [if_pos h]
      have hall : ∀ l ∈ splitlinesPy t, l = [] := by
        intro l hl
        have := (List.filter_eq_nil_iff.mp h) l hl
        simpa using this
      have : ((splitlinesPy t).map rmWs).filter (fun r => decide (r ≠ [])) = [] := by
        rw [List.filter_eq_nil_iff]
        intro x hx
        rcases List.mem_map.mp hx with ⟨l, hl, rfl⟩
        simp [hall l hl, rmWs]
      rw [this]
      rfl
    · rw [if_neg h]
      congr 1
      rw [List.filter_filter, List.filter_map]
      have harg : (splitlinesPy t).filter
            (fun a => decide (a ≠ [] ∧ pyStrip a ≠ []) && decide (a ≠ [])) =
          (splitlinesPy t).filter ((fun r => decide (r ≠ [])) ∘ rmWs) := by
        apply List.filter_congr
        intro r _
        have hiff : ((r ≠ [] ∧ pyStrip r ≠ []) ∧ r ≠ []) ↔ rmWs r ≠ [] := by
          constructor
          · intro hr
            intro hrm
            exact hr.1.2 (pyStrip_eq_nil_iff r |>.mpr (rmWs_eq_nil_iff r |>.mp hrm))
          · intro hrm
            have hs : pyStrip r ≠ [] := by
              intro hst
              exact hrm (rmWs_eq_nil_iff r |>.mpr (pyStrip_eq_nil_iff r |>.mp hst))
            have hr : r ≠ [] := by
              rintro rfl
              exact hrm rfl
            exact ⟨⟨hr, hs⟩, hr⟩
        simp only [Function.comp]
        rw [Bool.eq_iff_iff]
        simp only [Bool.and_eq_true, decide_eq_true_eq]
        exact hiff
      rw [harg]
      exact List.map_congr_left (fun r _ => flatten_pySplitWs r)
  · decide

/-- Parser step: a blank or comment line is skipped. -/
lemma gnv_cons_skip (line : List Char) (rest : List (List Char)) (fp : Bool)
    (h : pyStrip line = [] ∨ (pyStrip line).head? = some '#') :
    get_required_name_versions (line :: rest) fp =
      get_required_name_versions rest fp := by
  simp [get_required_name_versions, h]

/-- Parser step: an unpinned effective line fails when pinning is forced. -/
lemma gnv_cons_unpinned (line : List Char) (rest : List (List Char))
    (h1 : ¬ (pyStrip line = [] ∨ (pyStrip line).head? = some '#'))
    (h2 : hasEqEq (pyStrip line) = false) :
    get_required_name_versions (line :: rest) true =
      .error (strList "Requirement version is not pinned: " ++ pyStrip line) := by
  simp [get_required_name_versions, h1, h2]

/-- Parser step: a line holding the separator is split, normalized and
prepended to the parse of the remaining lines. -/
lemma gnv_cons_pinnedline (line : List Char) (rest : List (List Char)) (fp : Bool)
    (h1 : ¬ (pyStrip line = [] ∨ (pyStrip line).head? = some '#'))
    (h2 : hasEqEq (pyStrip line) = true) :
    get_required_name_versions (line :: rest) fp =
      match get_required_name_versions rest fp with
      | .error e => .error e
      | .ok ps => .ok ((pyStrip (pyLower (partitionEqEq (pyStrip line)).1),
                        some (pyStrip (pyLower (partitionEqEq (pyStrip line)).2))) :: ps) := by
  simp [get_required_name_versions, h1, h2]

/-- With pinning forced, the parse fails exactly when some line is non-blank,
non-comment and without the separator. -/
lemma gnv_error_iff (lines : List (List Char)) :
    (∃ e, get_required_name_versions lines true = .error e) ↔
      ∃ l ∈ lines, unpinnedLine l := by
  induction lines with
  | nil => simp [get_required_name_versions]
  | cons line rest ih =>
    by_cases hskip : pyStrip line = [] ∨ (pyStrip line).head? = some '#'
    · rw [gnv_cons_skip line rest true hskip]
      rw [ih]
      constructor
      · rintro ⟨l, hl, hu⟩
        exact ⟨l, List.mem_cons_of_mem _ hl, hu⟩
      · rintro ⟨l, hl, hu⟩
        rcases List.mem_cons.mp hl with rfl | hl'
        · rcases hu with ⟨hne, hnc, _⟩
          rcases hskip with hb | hc
          · exact absurd hb hne
          · exact absurd hc hnc
        · exact ⟨l, hl', hu⟩
    · by_cases heq : hasEqEq (pyStrip line) = false
      · rw [gnv_cons_unpinned line rest hskip heq]
        push_neg at hskip
        constructor
        · intro _
          exact ⟨line, List.mem_cons_self _ _, hskip.1, hskip.2, heq⟩
        · intro _
          exact ⟨_, rfl⟩
      · rw [gnv_cons_pinnedline line rest true hskip (by simpa using heq)]
        constructor
        · intro ⟨e, he⟩
          rcases hrest : get_required_name_versions rest true with e' | ps
          · rcases ih.mp ⟨e', hrest⟩ with ⟨l, hl, hu⟩
            exact ⟨l, List.mem_cons_of_mem _ hl, hu⟩
          · rw [hrest] at he
            cases he
        · rintro ⟨l, hl, hu⟩
          rcases List.mem_cons.mp hl with rfl | hl'
          · exact absurd hu.2.2 heq
          · rcases ih.mpr ⟨l, hl', hu⟩ with ⟨e, he⟩
            rw [he]
            exact ⟨e, rfl⟩

/-- When the parse fails under forced pinning, the error message is exactly
the policy text followed by the offending (stripped) line. -/
lemma gnv_error_msg (lines : List (List Char)) (e : List Char)
    (he : get_required_name_versions lines true = .error e) :
    ∃ l ∈ lines, unpinnedLine l ∧
      e = strList "Requirement version is not pinned: " ++ pyStrip l := by
  induction lines with
  | nil => cases he
  | cons line rest ih =>
    by_cases hskip : pyStrip line = [] ∨ (pyStrip line).head? = some '#'
    · rw [gnv_cons_skip line rest true hskip] at he
      rcases ih he with ⟨l, hl, hu, hmsg⟩
      exact ⟨l, List.mem_cons_of_mem _ hl, hu, hmsg⟩
    · by_cases heq : hasEqEq (pyStrip line) = false
      · rw [gnv_cons_unpinned line rest hskip heq] at he
        cases he
        push_neg at hskip
        exact ⟨line, List.mem_cons_self _ _, ⟨hskip.1, hskip.2, heq⟩, rfl⟩
      · rw [gnv_cons_pinnedline line rest true hskip (by simpa using heq)] at he
        rcases hrest : get_required_name_versions rest true with e' | ps
        · rw [hrest] at he
          cases he
          rcases ih hrest with ⟨l, hl, hu, hmsg⟩
          exact ⟨l, List.mem_cons_of_mem _ hl, hu, hmsg⟩
        · rw [hrest] at he
          cases he

/-- When the parse succeeds, it yields exactly one pair per non-blank,
non-comment line: nothing is silently dropped. -/
lemma gnv_ok_length (lines : List (List Char)) (ps : List ReqPair)
    (hok : get_required_name_versions lines true = .ok ps) :
    ps.length = (lines.filter effectiveLine).length := by
  induction lines generalizing ps with
  | nil =>
    cases hok
    rfl
  | cons line rest ih =>
    by_cases hskip : pyStrip line = [] ∨ (pyStrip line).head? = some '#'
    · rw [gnv_cons_skip line rest true hskip] at hok
      have hfe : effectiveLine line = false := by
        simp only [effectiveLine, decide_eq_false_iff_not]
        rcases hskip with hb | hc
        · exact fun hx => hx.1 hb
        · exact fun hx => hx.2 hc
      rw [List.filter_cons_of_neg (by simp [hfe])]
      exact ih ps hok
    · by_cases heq : hasEqEq (pyStrip line) = false
      · rw [gnv_cons_unpinned line rest hskip heq] at hok
        cases hok
      · rw [gnv_cons_pinnedline line rest true hskip (by simpa using heq)] at hok
        rcases hrest : get_required_name_versions rest true with e' | ps'
        · rw [hrest] at hok
          cases hok
        · rw [hrest] at hok
          cases hok
          have hfe : effectiveLine line = true := by
            push_neg at hskip
            simp only [effectiveLine, decide_eq_true_eq]
            exact hskip
          rw [List.filter_cons_of_pos (by simp [hfe])]
          simp [ih ps' hrest]

/-- C4: with pinning forced the parser raises exactly when some non-blank,
non-comment line lacks the `==` separator, the failure message carries the
offending line's (stripped) text, and a successful parse yields one pair per
effective line — nothing is silently skipped or recovered. -/
theorem C4_force_pinned_fails_iff_unpinned (lines : List (List Char)) :
    ((∃ e, get_required_name_versions lines true = .error e) ↔
      ∃ l ∈ lines, unpinnedLine l) ∧
    (∀ e, get_required_name_versions lines true = .error e →
      ∃ l ∈ lines, unpinnedLine l ∧
        e = strList "Requirement version is not pinned: " ++ pyStrip l) ∧
    (∀ ps, get_required_name_versions lines true = .ok ps →
      ps.length = (lines.filter effectiveLine).length) :=
  ⟨gnv_error_iff lines, fun e he => gnv_error_msg lines e he,
    fun ps hok => gnv_ok_length lines ps hok⟩

/-- Witness for C4 on a concrete manifest: the bare line `bar` is reported,
and the pinned two-line manifest parses to two pairs. -/
theorem C4_force_pinned_fails_iff_unpinned_witness :
    (∃ l ∈ [strList "a==1", strList " bar "], unpinnedLine l) ∧
    (∃ e, get_required_name_versions [strList "a==1", strList " bar "] true = .error e) ∧
    ([(strList "a", some (strList "1")), (strList "b", some (strList "2"))] : List ReqPair).length =
      ([strList "a==1", strList "b==2"].filter effectiveLine).length := by
  refine ⟨?_, ?_, ?_⟩
  · exact ⟨strList " bar ", by decide, by decide⟩
  · exact (C4_force_pinned_fails_iff_unpinned [strList "a==1", strList " bar "]).1.mpr
      ⟨strList " bar ", by decide, by decide⟩
  · exact (C4_force_pinned_fails_iff_unpinned [strList "a==1", strList "b==2"]).2.2
      [(strList "a", some (strList "1")), (strList "b", some (strList "2"))] (by decide)

/-- Dropping leading whitespace skips over an all-whitespace block. -/
lemma dropWhile_space_append (w l : List Char) (hw : ∀ c ∈ w, isPySpace c = true) :
    (w ++ l).dropWhile isPySpace = l.dropWhile isPySpace := by
  induction w with
  | nil => rfl
  | cons c w ih =>
    have hc : isPySpace c = true := hw c (List.mem_cons_self _ _)
    simp only [List.cons_append, List.dropWhile_cons, hc, if_true]
    exact ih (fun d hd => hw d (List.mem_cons_of_mem _ hd))

/-- Dropping leading whitespace is the identity when the first character is
not whitespace. -/
lemma dropWhile_space_of_head (l : List Char)
    (h : ∀ c, l.head? = some c → isPySpace c = false) :
    l.dropWhile isPySpace = l := by
  cases l with
  | nil => rfl
  | cons c t => simp [List.dropWhile_cons, h c rfl]

/-- Stripping a text that is a non-blank core surrounded by whitespace
returns exactly the core. -/
lemma pyStrip_spaced (w1 w4 m : List Char)
    (hw1 : ∀ c ∈ w1, isPySpace c = true) (hw4 : ∀ c ∈ w4, isPySpace c = true)
    (hm : m ≠ [])
    (hh : ∀ c, m.head? = some c → isPySpace c = false)
    (hl : ∀ c, m.getLast? = some c → isPySpace c = false) :
    pyStrip (w1 ++ m ++ w4) = m := by
  unfold pyStrip
  have h1 : (w1 ++ (m ++ w4)).dropWhile isPySpace = m ++ w4 := by
    rw [dropWhile_space_append w1 (m ++ w4) hw1]
    apply dropWhile_space_of_head
    intro c hc
    cases m with
    | nil => exact absurd rfl hm
    | cons a t =>
      apply hh
      simpa using hc
  rw [List.append_assoc, h1, List.reverse_append]
  rw [dropWhile_space_append w4.reverse m.reverse (fun c hc => hw4 c (List.mem_reverse.mp hc))]
  rw [dropWhile_space_of_head m.reverse
    (fun c hc => hl c (by rw [← List.head?_reverse]; exact hc))]
  exact List.reverse_reverse m

/-- A text containing an explicit `==` tests positive for the separator. -/
lemma hasEqEq_append_eqeq : ∀ a b : List Char, hasEqEq (a ++ '=' :: '=' :: b) = true
  | [], _ => by simp [hasEqEq]
  | [_], _ => by simp [hasEqEq]
  | c1 :: c2 :: t, b => by
    have ih := hasEqEq_append_eqeq (c2 :: t) b
    simp only [List.cons_append] at ih ⊢
    simp [hasEqEq, ih]

/-- A text without any equals sign has no separator. -/
lemma hasEqEq_of_no_eq : ∀ l : List Char, (∀ c ∈ l, c ≠ '=') → hasEqEq l = false
  | [], _ => rfl
  | [_], _ => rfl
  | c1 :: c2 :: t, h => by
    have h1 : c1 ≠ '=' := h c1 (List.mem_cons_self _ _)
    have ih := hasEqEq_of_no_eq (c2 :: t) (fun d hd => h d (List.mem_cons_of_mem _ hd))
    simp [hasEqEq, ih, h1]

/-- Concatenation introduces no separator when neither part has one and the
junction does not form one. -/
lemma hasEqEq_append : ∀ a b : List Char, hasEqEq a = false → hasEqEq b = false →
    ¬ (a.getLast? = some '=' ∧ b.head? = some '=') → hasEqEq (a ++ b) = false
  | [], _, _, hb, _ => hb
  | [c], b, _, hb, hj => by
    cases b with
    | nil => rfl
    | cons d b' =>
      have hcd : ¬ (c = '=' ∧ d = '=') := by
        rintro ⟨rfl, rfl⟩
        exact hj ⟨rfl, rfl⟩
      simp only [List.singleton_append, hasEqEq, hb, Bool.or_eq_false_iff,
        Bool.and_eq_false_iff, decide_eq_false_iff_not, and_true]
      by_cases hc : c = '='
      · subst hc
        exact Or.inr (fun hd => hcd ⟨rfl, hd⟩)
      · exact Or.inl hc
  | c1 :: c2 :: t, b, ha, hb, hj => by
    have ha' : ¬ (c1 = '=' ∧ c2 = '=') ∧ hasEqEq (c2 :: t) = false := by
      have := ha
      simp only [hasEqEq, Bool.or_eq_false_iff, Bool.and_eq_false_iff] at this ⊢
      constructor
      · intro ⟨h1, h2⟩
        rcases this.1 with h | h
        · exact absurd h1 (by simpa using h)
        · exact absurd h2 (by simpa using h)
      · exact this.2
    have ih := hasEqEq_append (c2 :: t) b ha'.2 hb (by simpa using hj)
    simp only [List.cons_append] at ih ⊢
    simp only [hasEqEq, ih, Bool.or_false, Bool.and_eq_false_iff, decide_eq_false_iff_not]
    by_cases hc : c1 = '='
    · subst hc
      exact Or.inr (fun h2 => ha'.1 ⟨rfl, h2⟩)
    · exact Or.inl hc

/-- Splitting at the first separator: when the prefix holds none and does not
end in `=`, the split lands exactly on the explicit separator. -/
lemma splitOnEqEq_append : ∀ a b : List Char, hasEqEq a = false →
    a.getLast? ≠ some '=' → splitOnEqEq (a ++ '=' :: '=' :: b) = some (a, b)
  | [], b, _, _ => by simp [splitOnEqEq]
  | [c], b, _, hl => by
    have hc : c ≠ '=' := by
      rintro rfl
      exact hl (by simp)
    simp [splitOnEqEq, hc]
  | c1 :: c2 :: t, b, ha, hl => by
    have ha' : ¬ (c1 = '=' ∧ c2 = '=') ∧ hasEqEq (c2 :: t) = false := by
      have := ha
      simp only [hasEqEq, Bool.or_eq_false_iff, Bool.and_eq_false_iff] at this
      constructor
      · intro ⟨h1, h2⟩
        rcases this.1 with h | h
        · exact absurd h1 (by simpa using h)
        · exact absurd h2 (by simpa using h)
      · exact this.2
    have ih := splitOnEqEq_append (c2 :: t) b ha'.2 (by simpa using hl)
    simp only [List.cons_append] at ih ⊢
    simp [splitOnEqEq, ha'.1, ih]

/-- Substituting by a table of non-whitespace keys fixes whitespace. -/
lemma lookupLower_space (ps : List (Char × Char)) (c : Char)
    (hk : ∀ p ∈ ps, isPySpace p.1 = false) (h : isPySpace c = true) :
    lookupLower ps c = c := by
  induction ps with
  | nil => rfl
  | cons p t ih =>
    have hp := hk p (List.mem_cons_self _ _)
    by_cases hc : c = p.1
    · rw [hc] at h
      rw [h] at hp
      cases hp
    · simp only [lookupLower, hc, if_false]
      exact ih (fun q hq => hk q (List.mem_cons_of_mem _ hq))

/-- Lower-casing fixes whitespace characters. -/
lemma lowerChar_space (c : Char) (h : isPySpace c = true) : lowerChar c = c :=
  lookupLower_space lowerPairs c (by decide) h

/-- Substituting by a table of non-whitespace values maps non-whitespace to
non-whitespace. -/
lemma lookupLower_not_space (ps : List (Char × Char)) (c : Char)
    (hv : ∀ p ∈ ps, isPySpace p.2 = false) (h : isPySpace c = false) :
    isPySpace (lookupLower ps c) = false := by
  induction ps with
  | nil => exact h
  | cons p t ih =>
    by_cases hc : c = p.1
    · simp only [lookupLower, hc, if_true]
      exact hv p (List.mem_cons_self _ _)
    · simp only [lookupLower, hc, if_false]
      exact ih (fun q hq => hv q (List.mem_cons_of_mem _ hq))

/-- Lower-casing maps non-whitespace to non-whitespace. -/
lemma lowerChar_not_space (c : Char) (h : isPySpace c = false) :
    isPySpace (lowerChar c) = false :=
  lookupLower_not_space lowerPairs c (by decide) h

/-- A non-empty prefix decides the head of an appended list. -/
lemma head?_append_left (n x : List Char) (hn : n ≠ []) : (n ++ x).head? = n.head? := by
  cases n with
  | nil => exact absurd rfl hn
  | cons c t => rfl

/-- Lower-casing preserves all-whitespace blocks. -/
lemma allSpace_pyLower (w : List Char) (hw : ∀ c ∈ w, isPySpace c = true) :
    ∀ c ∈ pyLower w, isPySpace c = true := by
  intro c hc
  rcases List.mem_map.mp hc with ⟨d, hd, rfl⟩
  rw [lowerChar_space d (hw d hd)]
  exact hw d hd

/-- The lower-case image of a non-blank text is non-empty. -/
lemma pyLower_ne_nil (n : List Char) (hn : n ≠ []) : pyLower n ≠ [] := by
  simpa [pyLower, List.map_eq_nil_iff] using hn

/-- The head of the lower-case image of a whitespace-free text is not
whitespace. -/
lemma pyLower_head_not_space (n : List Char) (hnsp : ∀ c ∈ n, isPySpace c = false) :
    ∀ c, (pyLower n).head? = some c → isPySpace c = false := by
  intro c hc
  rw [pyLower, List.head?_map] at hc
  rcases Option.map_eq_some'.mp hc with ⟨d, hd, rfl⟩
  exact lowerChar_not_space d (hnsp d (List.mem_of_mem_head? hd))

/-- The last character of the lower-case image of a whitespace-free text is
not whitespace. -/
lemma pyLower_getLast_not_space (n : List Char) (hnsp : ∀ c ∈ n, isPySpace c = false) :
    ∀ c, (pyLower n).getLast? = some c → isPySpace c = false := by
  intro c hc
  rw [pyLower, List.getLast?_map] at hc
  rcases Option.map_eq_some'.mp hc with ⟨d, hd, rfl⟩
  exact lowerChar_not_space d (hnsp d (List.mem_of_getLast?_eq_some hd))

/-- Lower-then-strip of a whitespace-free text followed by a whitespace tail
is the lower-cased text. -/
lemma pyStrip_pyLower_right (n w : List Char) (hn : n ≠ [])
    (hnsp : ∀ c ∈ n, isPySpace c = false) (hw : ∀ c ∈ w, isPySpace c = true) :
    pyStrip (pyLower (n ++ w)) = pyLower n := by
  have h := pyStrip_spaced [] (pyLower w) (pyLower n)
    (by intro c hc; cases hc) (allSpace_pyLower w hw) (pyLower_ne_nil n hn)
    (pyLower_head_not_space n hnsp) (pyLower_getLast_not_space n hnsp)
  simpa [pyLower, List.map_append] using h

/-- Lower-then-strip of a whitespace head followed by a whitespace-free text
is the lower-cased text. -/
lemma pyStrip_pyLower_left (w v : List Char) (hv : v ≠ [])
    (hvsp : ∀ c ∈ v, isPySpace c = false) (hw : ∀ c ∈ w, isPySpace c = true) :
    pyStrip (pyLower (w ++ v)) = pyLower v := by
  have h := pyStrip_spaced (pyLower w) [] (pyLower v)
    (allSpace_pyLower w hw) (by intro c hc; cases hc) (pyLower_ne_nil v hv)
    (pyLower_head_not_space v hvsp) (pyLower_getLast_not_space v hvsp)
  simpa [pyLower, List.map_append] using h

/-- An all-whitespace block contains no equals sign. -/
lemma allSpace_no_eq (w : List Char) (hw : ∀ c ∈ w, isPySpace c = true) :
    ∀ c ∈ w, c ≠ '=' := by
  intro c hc he
  have := hw c hc
  rw [he] at this
  cases this

/-- The name part followed by trailing whitespace neither contains the
separator nor ends in an equals sign. -/
lemma name_ws_no_eqeq (n w : List Char) (hne : hasEqEq n = false)
    (hnl : n.getLast? ≠ some '=') (hw : ∀ c ∈ w, isPySpace c = true) :
    hasEqEq (n ++ w) = false ∧ (n ++ w).getLast? ≠ some '=' := by
  constructor
  · apply hasEqEq_append n w hne (hasEqEq_of_no_eq w (allSpace_no_eq w hw))
    rintro ⟨_, hh⟩
    exact allSpace_no_eq w hw '=' (List.mem_of_mem_head? hh) rfl
  · cases hwn : w with
    | nil =>
      rw [List.append_nil]
      exact hnl
    | cons c t =>
      rw [List.getLast?_append_of_ne_nil n (by simp [hwn])]
      intro hlast
      rw [← hwn] at hlast
      exact allSpace_no_eq w hw '=' (List.mem_of_getLast?_eq_some hlast) rfl

/-- Parsing a single pinned requirement line of the shape
`ws1 ++ name ++ ws2 ++ "==" ++ ws3 ++ version ++ ws4` (whitespace-free name
and version, name non-blank, not a comment, without a separator and not
ending in `=`) yields `(name.lower(), version.lower())` prepended to the
parse of the remaining lines, for either pinning mode. -/
lemma gnv_pinned_spaced (ws1 ws2 ws3 ws4 n v : List Char) (rest : List (List Char)) (fp : Bool)
    (hw1 : ∀ c ∈ ws1, isPySpace c = true) (hw2 : ∀ c ∈ ws2, isPySpace c = true)
    (hw3 : ∀ c ∈ ws3, isPySpace c = true) (hw4 : ∀ c ∈ ws4, isPySpace c = true)
    (hn : n ≠ []) (hnsp : ∀ c ∈ n, isPySpace c = false)
    (hnc : n.head? ≠ some '#')
    (hne : hasEqEq n = false) (hnl : n.getLast? ≠ some '=')
    (hvsp : ∀ c ∈ v, isPySpace c = false) :
    get_required_name_versions ((ws1 ++ n ++ ws2 ++ '=' :: '=' :: (ws3 ++ v ++ ws4)) :: rest) fp =
      match get_required_name_versions rest fp with
      | .error e => .error e
      | .ok ps => .ok ((pyLower n, some (pyLower v)) :: ps) := by
  have hnws := name_ws_no_eqeq n ws2 hne hnl hw2
  have hname : pyStrip (pyLower (n ++ ws2)) = pyLower n :=
    pyStrip_pyLower_right n ws2 hn hnsp hw2
  have hhead : ∀ x : List Char, ((n ++ ws2) ++ x).head? = n.head? := by
    intro x
    rw [head?_append_left _ _ (by simp [hn]), head?_append_left n ws2 hn]
  -- the stripped line in both cases: name part, separator, version core
  obtain ⟨tcore, hstrip, htail, hver⟩ :
      ∃ tcore, pyStrip (ws1 ++ n ++ ws2 ++ '=' :: '=' :: (ws3 ++ v ++ ws4)) =
          (n ++ ws2) ++ '=' :: '=' :: tcore ∧
        ((n ++ ws2) ++ '=' :: '=' :: tcore).getLast? ≠ some ' ' ∧
        pyStrip (pyLower tcore) = pyLower v := by
    by_cases hv : v = []
    · subst hv
      refine ⟨[], ?_, ?_, rfl⟩
      · have hgroup : ws1 ++ n ++ ws2 ++ '=' :: '=' :: (ws3 ++ [] ++ ws4) =
            ws1 ++ ((n ++ ws2) ++ '=' :: '=' :: ([] : List Char)) ++ (ws3 ++ ws4) := by
          simp [List.append_assoc]
        rw [hgroup]
        apply pyStrip_spaced ws1 (ws3 ++ ws4) ((n ++ ws2) ++ '=' :: '=' :: ([] : List Char)) hw1
        · intro c hc
          rcases List.mem_append.mp hc with h | h
          · exact hw3 c h
          · exact hw4 c h
        · simp
        · intro c hc
          rw [hhead] at hc
          exact hnsp c (List.mem_of_mem_head? hc)
        · intro c hc
          rw [List.getLast?_append_of_ne_nil _ (by simp)] at hc
          cases hc
          decide
      · rw [List.getLast?_append_of_ne_nil _ (by simp)]
        decide
    · refine ⟨ws3 ++ v, ?_, ?_, pyStrip_pyLower_left ws3 v hv hvsp hw3⟩
      · have hgroup : ws1 ++ n ++ ws2 ++ '=' :: '=' :: (ws3 ++ v ++ ws4) =
            ws1 ++ ((n ++ ws2) ++ '=' :: '=' :: (ws3 ++ v)) ++ ws4 := by
          simp [List.append_assoc]
        rw [hgroup]
        apply pyStrip_spaced ws1 ws4 ((n ++ ws2) ++ '=' :: '=' :: (ws3 ++ v)) hw1 hw4
        · simp
        · intro c hc
          rw [hhead] at hc
          exact hnsp c (List.mem_of_mem_head? hc)
        · intro c hc
          have hgr2 : (n ++ ws2) ++ '=' :: '=' :: (ws3 ++ v) =
              ((n ++ ws2) ++ '=' :: '=' :: ws3) ++ v := by
            simp [List.append_assoc]
          rw [hgr2, List.getLast?_append_of_ne_nil _ hv] at hc
          exact hvsp c (List.mem_of_getLast?_eq_some hc)
      · intro hlast
        have hgr2 : (n ++ ws2) ++ '=' :: '=' :: (ws3 ++ v) =
            ((n ++ ws2) ++ '=' :: '=' :: ws3) ++ v := by
          simp [List.append_assoc]
        rw [hgr2, List.getLast?_append_of_ne_nil _ hv] at hlast
        have := hvsp ' ' (List.mem_of_getLast?_eq_some hlast)
        cases this
  have hpart : partitionEqEq ((n ++ ws2) ++ '=' :: '=' :: tcore) = (n ++ ws2, tcore) := by
    unfold partitionEqEq
    rw [splitOnEqEq_append (n ++ ws2) tcore hnws.1 hnws.2]
  rw [gnv_cons_pinnedline _ rest fp ?_ ?_]
  · rcases hrest : get_required_name_versions rest fp with e | ps <;> simp only [hrest]
    rw [hstrip, hpart]
    simp only [hname, hver]
  · rw [hstrip]
    push_neg
    constructor
    · simp [hn]
    · rw [hhead]
      exact hnc
  · rw [hstrip]
    exact hasEqEq_append_eqeq (n ++ ws2) tcore

/-- C5: a line `name==version` — possibly with whitespace around the line and
around the separator — parses, under forced pinning, to the lower-cased,
whitespace-stripped name and version, the split landing on the first `==`
(the version part may itself contain `==`). -/
theorem C5_pinned_line_lower_strip (ws1 ws2 ws3 ws4 n v : List Char)
    (hw1 : ∀ c ∈ ws1, isPySpace c = true) (hw2 : ∀ c ∈ ws2, isPySpace c = true)
    (hw3 : ∀ c ∈ ws3, isPySpace c = true) (hw4 : ∀ c ∈ ws4, isPySpace c = true)
    (hn : n ≠ []) (hnsp : ∀ c ∈ n, isPySpace c = false)
    (hnc : n.head? ≠ some '#')
    (hne : hasEqEq n = false) (hnl : n.getLast? ≠ some '=')
    (hvsp : ∀ c ∈ v, isPySpace c = false) :
    get_required_name_versions [ws1 ++ n ++ ws2 ++ '=' :: '=' :: (ws3 ++ v ++ ws4)] true =
      .ok [(pyLower n, some (pyLower v))] := by
  rw [gnv_pinned_spaced ws1 ws2 ws3 ws4 n v [] true hw1 hw2 hw3 hw4 hn hnsp hnc hne hnl hvsp]
  rfl

/-- Witness for C5: `" Foo == 1==2 "` parses to `("foo", "1==2")`, with the
split on the first separator. -/
theorem C5_pinned_line_lower_strip_witness :
    get_required_name_versions
      [strList " " ++ strList "Foo" ++ strList " " ++
        '=' :: '=' :: (strList " " ++ strList "1==2" ++ strList " ")] true =
      .ok [(strList "foo", some (strList "1==2"))] :=
  (C5_pinned_line_lower_strip (strList " ") (strList " ") (strList " ") (strList " ")
    (strList "Foo") (strList "1==2") (by decide) (by decide) (by decide) (by decide)
    (by decide) (by decide) (by decide) (by decide) (by decide) (by decide)).trans (by decide)

/-- C10: a line `name==` (separator present, empty version) passes the
pinning check — which looks only for the separator — even under forced
pinning, and yields the pair of the (lower-cased) name and the empty-string
version. -/
theorem C10_empty_version_accepted (n : List Char)
    (hn : n ≠ []) (hnsp : ∀ c ∈ n, isPySpace c = false) (hnc : n.head? ≠ some '#')
    (hne : hasEqEq n = false) (hnl : n.getLast? ≠ some '=') :
    get_required_name_versions [n ++ '=' :: '=' :: []] true =
      .ok [(pyLower n, some [])] := by
  have h := gnv_pinned_spaced [] [] [] [] n [] [] true (by simp) (by simp) (by simp) (by simp)
    hn hnsp hnc hne hnl (by simp)
  rw [show get_required_name_versions ([] : List (List Char)) true = .ok [] from rfl] at h
  simpa [pyLower] using h

/-- Witness for C10: `foo==` is accepted under forced pinning and parses to
`("foo", "")`. -/
theorem C10_empty_version_accepted_witness :
    get_required_name_versions [strList "foo" ++ '=' :: '=' :: []] true =
      .ok [(strList "foo", some [])] :=
  (C10_empty_version_accepted (strList "foo") (by decide) (by decide) (by decide)
    (by decide) (by decide)).trans (by decide)

/-- Scanning a newline-free block up to an explicit newline emits the block
as one line and continues. -/
lemma splitlines_go_newline (l : List Char) (hl : ∀ c ∈ l, c ≠ '\n' ∧ c ≠ '\x0d') :
    ∀ (acc r : List Char),
      splitlinesPy.go acc (l ++ '\n' :: r) = (acc.reverse ++ l) :: splitlinesPy.go [] r := by
  induction l with
  | nil =>
    intro acc r
    simp [splitlinesPy.go]
  | cons c l ih =>
    intro acc r
    have hc := hl c (List.mem_cons_self _ _)
    rw [List.cons_append]
    rw [show splitlinesPy.go acc (c :: (l ++ '\n' :: r)) =
        splitlinesPy.go (c :: acc) (l ++ '\n' :: r) by simp [splitlinesPy.go, hc.1, hc.2]]
    rw [ih (fun d hd => hl d (List.mem_cons_of_mem _ hd)) (c :: acc) r]
    simp

/-- Scanning a final newline-free, non-empty block emits it as the last
line. -/
lemma splitlines_go_last (l : List Char) (hl : ∀ c ∈ l, c ≠ '\n' ∧ c ≠ '\x0d') :
    ∀ acc : List Char, (acc = [] → l ≠ []) →
      splitlinesPy.go acc l = [acc.reverse ++ l] := by
  induction l with
  | nil =>
    intro acc hne
    have : acc ≠ [] := fun h => (hne h) rfl
    simp [splitlinesPy.go, this]
  | cons c l ih =>
    intro acc _
    have hc := hl c (List.mem_cons_self _ _)
    rw [show splitlinesPy.go acc (c :: l) = splitlinesPy.go (c :: acc) l by
      simp [splitlinesPy.go, hc.1, hc.2]]
    rw [ih (fun d hd => hl d (List.mem_cons_of_mem _ hd)) (c :: acc) (by simp)]
    simp

/-- Splitting the newline-join of non-empty, newline-free lines recovers the
lines. -/
lemma splitlinesPy_joinNl : ∀ ls : List (List Char),
    (∀ l ∈ ls, l ≠ [] ∧ ∀ c ∈ l, c ≠ '\n' ∧ c ≠ '\x0d') →
    splitlinesPy (joinNl ls) = ls
  | [], _ => rfl
  | [l], h => by
    have hl := h l (List.mem_cons_self _ _)
    rw [joinNl, splitlinesPy]
    rw [splitlines_go_last l hl.2 [] (fun _ => hl.1)]
    simp
  | l :: l2 :: ls, h => by
    have hl := h l (List.mem_cons_self _ _)
    have ih := splitlinesPy_joinNl (l2 :: ls) (fun x hx => h x (List.mem_cons_of_mem _ hx))
    have hjoin : joinNl (l :: l2 :: ls) = l ++ '\n' :: joinNl (l2 :: ls) := rfl
    rw [hjoin, splitlinesPy]
    rw [splitlines_go_newline l hl.2 [] (joinNl (l2 :: ls))]
    rw [show splitlinesPy.go [] (joinNl (l2 :: ls)) = splitlinesPy (joinNl (l2 :: ls)) from rfl]
    rw [ih]
    simp

/-- Rendered pinned lines parse back pairwise: the heart of the round-trip,
for names and versions already in the parser's normal form. -/
lemma gnv_render_roundtrip (pairs : List (List Char × List Char))
    (h : ∀ p ∈ pairs, p.1 ≠ [] ∧ (∀ c ∈ p.1, isPySpace c = false) ∧
      p.1.head? ≠ some '#' ∧ hasEqEq p.1 = false ∧ p.1.getLast? ≠ some '=' ∧
      pyLower p.1 = p.1 ∧ (∀ c ∈ p.2, isPySpace c = false) ∧ pyLower p.2 = p.2) :
    get_required_name_versions (pairs.map (fun p => renderReq (p.1, some p.2))) true =
      .ok (pairs.map (fun p => (p.1, some p.2))) := by
  induction pairs with
  | nil => rfl
  | cons p ps ih =>
    obtain ⟨hn, hnsp, hnc, hne, hnl, hlow, hvsp, hvlow⟩ := h p (List.mem_cons_self _ _)
    have hline : renderReq (p.1, some p.2) =
        [] ++ p.1 ++ [] ++ '=' :: '=' :: ([] ++ p.2 ++ []) := by
      simp [renderReq]
    rw [List.map_cons, hline,
      gnv_pinned_spaced [] [] [] [] p.1 p.2 _ true (by simp) (by simp) (by simp) (by simp)
        hn hnsp hnc hne hnl hvsp]
    rw [ih (fun q hq => h q (List.mem_cons_of_mem _ hq))]
    rw [hlow, hvlow]
    rfl

/-- C6 counterexample: the round-trip claim fails for the pair set
`{("A", "1")}` — the rendered manifest `A==1` parses back lower-cased, to
`("a", "1")`, so the original pair is not reproduced. -/
theorem C6_roundtrip_counterexample :
    get_required_name_versions
      (splitlinesPy (joinNl
        ([(strList "A", strList "1")].map (fun p => renderReq (p.1, some p.2))))) true =
      .ok [(strList "a", some (strList "1"))] ∧
    ((strList "A", some (strList "1")) : ReqPair) ∉
      ([(strList "a", some (strList "1"))] : List ReqPair) := by decide

/-- C6 (amended): for pairs whose names and versions are in the parser's
normal form — lower-case, whitespace-free, name non-empty, not starting with
`#`, containing no `==` and not ending in `=` — rendering each pair as a
`name==version` manifest line (as `lock_dev_requirements` renders) and
re-parsing the joined text under forced pinning reproduces exactly the
original pairs. -/
theorem C6_roundtrip_normal_form (pairs : List (List Char × List Char))
    (h : ∀ p ∈ pairs, p.1 ≠ [] ∧ (∀ c ∈ p.1, isPySpace c = false) ∧
      p.1.head? ≠ some '#' ∧ hasEqEq p.1 = false ∧ p.1.getLast? ≠ some '=' ∧
      pyLower p.1 = p.1 ∧ (∀ c ∈ p.2, isPySpace c = false) ∧ pyLower p.2 = p.2) :
    get_required_name_versions
      (splitlinesPy (joinNl (pairs.map (fun p => renderReq (p.1, some p.2))))) true =
      .ok (pairs.map (fun p => (p.1, some p.2))) := by
  rw [splitlinesPy_joinNl (pairs.map (fun p => renderReq (p.1, some p.2))) ?_]
  · exact gnv_render_roundtrip pairs h
  · intro l hlmem
    rcases List.mem_map.mp hlmem with ⟨p, hp, rfl⟩
    obtain ⟨hn, hnsp, _, _, _, _, hvsp, _⟩ := h p hp
    constructor
    · simp [renderReq]
    · intro c hc
      have hmem3 : c ∈ p.1 ∨ c = '=' ∨ c ∈ p.2 := by simpa [renderReq] using hc
      rcases hmem3 with hmem | rfl | hmem
      · have hns := hnsp c hmem
        constructor <;> rintro rfl <;> simp [isPySpace] at hns
      · constructor <;> intro habs <;> cases habs
      · have hns := hvsp c hmem
        constructor <;> rintro rfl <;> simp [isPySpace] at hns

/-- Witness for C6 at a concrete normal-form pair list. -/
theorem C6_roundtrip_normal_form_witness :
    get_required_name_versions
      (splitlinesPy (joinNl
        ([(strList "a", strList "1"), (strList "b", strList "2")].map
          (fun p => renderReq (p.1, some p.2))))) true =
      .ok [(strList "a", some (strList "1")), (strList "b", some (strList "2"))] :=
  (C6_roundtrip_normal_form [(strList "a", strList "1"), (strList "b", strList "2")]
    (by decide)).trans (by decide)

/-- Lexicographic order on texts is transitive. -/
lemma lexLt_trans : ∀ {a b c : List Char},
    List.Lex (· < ·) a b → List.Lex (· < ·) b c → List.Lex (· < ·) a c
  | _, _, _, .nil, h2 => by cases h2 <;> exact .nil
  | _, _, _, .rel h1, .rel h2 => .rel (lt_trans h1 h2)
  | _, _, _, .rel h1, .cons _ => .rel h1
  | _, _, _, .cons _, .rel h2 => .rel h2
  | _, _, _, .cons h1, .cons h2 => .cons (lexLt_trans h1 h2)

/-- Lexicographic order on texts is asymmetric. -/
lemma lexLt_asymm {a b : List Char} (h : List.Lex (· < ·) a b) :
    ¬ List.Lex (· < ·) b a :=
  (List.Lex.isAsymm (· < ·)).asymm a b h

/-- Two texts neither of which lexicographically precedes the other are
equal. -/
lemma lexLt_connex {a b : List Char} (h1 : ¬ List.Lex (· < ·) a b)
    (h2 : ¬ List.Lex (· < ·) b a) : a = b := by
  rcases (List.Lex.isTrichotomous (· < ·)).trichotomous a b with h | h | h
  · exact absurd h h1
  · exact h
  · exact absurd h h2

instance : IsTotal ReqPair PairLe := by
  constructor
  intro p q
  by_cases h : p.1 = q.1
  · rcases hp : p.2 with _ | v <;> rcases hq : q.2 with _ | w
    · left
      simp [PairLe, pairLeB, h, hp, hq]
    · left
      simp [PairLe, pairLeB, h, hp, hq]
    · right
      simp [PairLe, pairLeB, h.symm, hp, hq]
    · by_cases hvw : List.Lex (· < ·) w v
      · right
        simp [PairLe, pairLeB, h.symm, hp, hq]
        exact lexLt_asymm hvw
      · left
        simp [PairLe, pairLeB, h, hp, hq, hvw]
  · by_cases hlex : List.Lex (· < ·) p.1 q.1
    · left
      simp [PairLe, pairLeB, h, hlex]
    · right
      have hqp : q.1 ≠ p.1 := fun he => h he.symm
      have : List.Lex (· < ·) q.1 p.1 := by
        rcases (List.Lex.isTrichotomous (· < ·)).trichotomous p.1 q.1 with h' | h' | h'
        · exact absurd h' hlex
        · exact absurd h' h
        · exact h'
      simp [PairLe, pairLeB, hqp, this]

instance : IsTrans ReqPair PairLe := by
  constructor
  intro p q r hpq hqr
  by_cases h1 : p.1 = q.1 <;> by_cases h2 : q.1 = r.1
  · have h3 : p.1 = r.1 := h1.trans h2
    simp [PairLe, pairLeB, h1, h2, h3] at hpq hqr ⊢
    rcases hp : p.2 with _ | a <;> rcases hq : q.2 with _ | b <;> rcases hr : r.2 with _ | c <;>
      simp_all
    intro hca
    rcases (List.Lex.isTrichotomous (· < ·)).trichotomous a b with h | h | h
    · exact hqr (lexLt_trans hca h)
    · subst h
      exact hqr hca
    · exact hpq h
  · have h3 : p.1 ≠ r.1 := fun he => h2 (h1 ▸ he)
    simp [PairLe, pairLeB, h1, h2, h3] at hpq hqr ⊢
    exact hqr
  · have h3 : p.1 ≠ r.1 := fun he => h1 (he.trans h2.symm)
    simp [PairLe, pairLeB, h1, h2, h3] at hpq ⊢
    exact hpq
  · simp [PairLe, pairLeB, h1, h2] at hpq hqr
    have hlex : List.Lex (· < ·) p.1 r.1 := lexLt_trans hpq hqr
    have h3 : p.1 ≠ r.1 := fun he => lexLt_asymm (he ▸ hpq) hqr
    simp [PairLe, pairLeB, h3, hlex]

/-- Membership in an updated dictionary comes from the dictionary or is the
updated key. -/
lemma mem_updateDict {d : List ReqPair} {k : List Char} {v : Option (List Char)}
    {q : ReqPair} (hq : q ∈ updateDict d k v) : q ∈ d ∨ q.1 = k := by
  induction d with
  | nil =>
    rcases List.mem_singleton.mp hq with rfl
    exact Or.inr rfl
  | cons p t ih =>
    by_cases hpk : p.1 = k
    · rw [show updateDict (p :: t) k v = (p.1, v) :: t by simp [updateDict, hpk]] at hq
      rcases List.mem_cons.mp hq with rfl | hq'
      · exact Or.inr hpk
      · exact Or.inl (List.mem_cons_of_mem _ hq')
    · rw [show updateDict (p :: t) k v = p :: updateDict t k v by
        cases p
        simp [updateDict, hpk]] at hq
      rcases List.mem_cons.mp hq with rfl | hq'
      · exact Or.inl (List.mem_cons_self _ _)
      · rcases ih hq' with h | h
        · exact Or.inl (List.mem_cons_of_mem _ h)
        · exact Or.inr h

/-- The keys of an updated dictionary are the old keys, possibly with the new
key appended. -/
lemma keys_updateDict {d : List ReqPair} {k : List Char} {v : Option (List Char)}
    {x : List Char} (hx : x ∈ (updateDict d k v).map Prod.fst) :
    x ∈ d.map Prod.fst ∨ x = k := by
  rcases List.mem_map.mp hx with ⟨q, hq, rfl⟩
  rcases mem_updateDict hq with h | h
  · exact Or.inl (List.mem_map_of_mem _ h)
  · exact Or.inr h

/-- Updating preserves distinctness of the keys. -/
lemma nodup_keys_updateDict {d : List ReqPair} {k : List Char} {v : Option (List Char)}
    (hd : (d.map Prod.fst).Nodup) : ((updateDict d k v).map Prod.fst).Nodup := by
  induction d with
  | nil => simp [updateDict]
  | cons p t ih =>
    rw [List.map_cons, List.nodup_cons] at hd
    by_cases hpk : p.1 = k
    · rw [show updateDict (p :: t) k v = (p.1, v) :: t by simp [updateDict, hpk]]
      rw [List.map_cons, List.nodup_cons]
      exact hd
    · rw [show updateDict (p :: t) k v = p :: updateDict t k v by
        cases p
        simp [updateDict, hpk]]
      rw [List.map_cons, List.nodup_cons]
      refine ⟨fun hmem => ?_, ih hd.2⟩
      rcases keys_updateDict hmem with h | h
      · exact hd.1 h
      · exact hpk h

/-- Every entry of the dictionary built from a pair list carries a key of the
list. -/
lemma mem_dictOfPairs (l : List ReqPair) (q : ReqPair) (hq : q ∈ dictOfPairs l) :
    q.1 ∈ l.map Prod.fst := by
  suffices h : ∀ (l : List ReqPair) (d : List ReqPair) (q : ReqPair),
      q ∈ l.foldl (fun d p => updateDict d p.1 p.2) d → q ∈ d ∨ q.1 ∈ l.map Prod.fst by
    rcases h l [] q hq with h' | h'
    · cases h'
    · exact h'
  intro l
  induction l with
  | nil =>
    intro d q hq
    exact Or.inl hq
  | cons p t ih =>
    intro d q hq
    rcases ih (updateDict d p.1 p.2) q hq with h' | h'
    · rcases mem_updateDict h' with h'' | h''
      · exact Or.inl h''
      · exact Or.inr (by simp [h''])
    · exact Or.inr (List.mem_cons_of_mem _ h')

/-- The dictionary built from a pair list has distinct keys. -/
lemma nodup_keys_dictOfPairs (l : List ReqPair) :
    ((dictOfPairs l).map Prod.fst).Nodup := by
  suffices h : ∀ (l : List ReqPair) (d : List ReqPair), (d.map Prod.fst).Nodup →
      ((l.foldl (fun d p => updateDict d p.1 p.2) d).map Prod.fst).Nodup from
    h l [] (by simp)
  intro l
  induction l with
  | nil =>
    intro d hd
    exact hd
  | cons p t ih =>
    intro d hd
    exact ih (updateDict d p.1 p.2) (nodup_keys_updateDict hd)

/-- Bind on a successful `Except` applies the continuation. -/
lemma except_bind_ok {ε α β : Type} (x : α) (f : α → Except ε β) :
    (Except.ok x >>= f) = f x := rfl

/-- Pure on `Except` is success. -/
lemma except_pure_eq {ε α : Type} (x : α) : (pure x : Except ε α) = Except.ok x := rfl

/-- C1: whenever the baseline manifest and the installed snapshot both parse
under forced pinning, the dev lock writes the rendering of a pair list whose
names are strictly sorted (hence sorted with no duplicates) and none of which
occurs among the baseline names; on baseline `{a, b}` and snapshot
`{a==1, b==2, c==3}` the written text is exactly `c==3`. -/
theorem C1_lock_dev_requirements_dev_only :
    (∀ (mainContent installedText : List Char) (mainPairs instPairs : List ReqPair),
      load_requirements mainContent true = .ok mainPairs →
      get_required_name_versions (splitlinesPy installedText) true = .ok instPairs →
      ∃ dev : List ReqPair,
        lock_dev_requirements mainContent installedText = .ok (joinNl (dev.map renderReq)) ∧
        List.Pairwise (fun p q : ReqPair => List.Lex (· < ·) p.1 q.1) dev ∧
        ∀ p ∈ dev, p.1 ∉ mainPairs.map Prod.fst) ∧
    lock_dev_requirements (strList "a==1.0\nb==2.0") (strList "a==1\nb==2\nc==3") =
      .ok (strList "c==3") := by
  constructor
  · intro mainContent installedText mainPairs instPairs hm hi
    set filtered := instPairs.filter (fun p => decide (p.1 ∉ mainPairs.map Prod.fst)) with hf
    set dev := List.insertionSort PairLe (dictOfPairs filtered) with hdev
    have hperm : (List.insertionSort PairLe (dictOfPairs filtered)).Perm (dictOfPairs filtered) :=
      List.perm_insertionSort PairLe (dictOfPairs filtered)
    refine ⟨dev, ?_, ?_, ?_⟩
    · simp only [lock_dev_requirements, hm, except_bind_ok, hi, except_pure_eq]
    · have hsorted : List.Pairwise PairLe dev := List.sorted_insertionSort PairLe _
      have hnodup : (dev.map Prod.fst).Nodup :=
        ((hperm.map Prod.fst).nodup_iff).mpr (nodup_keys_dictOfPairs filtered)
      have hpairne : List.Pairwise (fun p q : ReqPair => p.1 ≠ q.1) dev :=
        List.pairwise_map.mp hnodup
      refine (hsorted.and hpairne).imp ?_
      intro p q hpq
      have hle := hpq.1
      have hne := hpq.2
      simp only [PairLe, pairLeB, hne, if_false, decide_eq_true_eq] at hle
      exact hle
    · intro p hp
      have hmem : p ∈ dictOfPairs filtered := hperm.mem_iff.mp hp
      have hkey := mem_dictOfPairs filtered p hmem
      rcases List.mem_map.mp hkey with ⟨q, hqf, hq1⟩
      have hq := List.mem_filter.mp hqf
      rw [← hq1]
      simpa using hq.2
  · decide

/-- Witness for C1 at the spec's example: baseline `a==1.0`, `b==2.0` and
snapshot `a==1`, `b==2`, `c==3`. -/
theorem C1_lock_dev_requirements_dev_only_witness :
    ∃ dev : List ReqPair,
      lock_dev_requirements (strList "a==1.0\nb==2.0") (strList "a==1\nb==2\nc==3") =
        .ok (joinNl (dev.map renderReq)) ∧
      List.Pairwise (fun p q : ReqPair => List.Lex (· < ·) p.1 q.1) dev ∧
      ∀ p ∈ dev, p.1 ∉
        ([(strList "a", some (strList "1.0")), (strList "b", some (strList "2.0"))] :
          List ReqPair).map Prod.fst :=
  C1_lock_dev_requirements_dev_only.1 (strList "a==1.0\nb==2.0")
    (strList "a==1\nb==2\nc==3")
    [(strList "a", some (strList "1.0")), (strList "b", some (strList "2.0"))]
    [(strList "a", some (strList "1")), (strList "b", some (strList "2")),
      (strList "c", some (strList "3"))]
    (by decide) (by decide)

/-- C2: the claim says the returned mapping holds the file's normalized
`options.install_requires` lines; in fact the source hands the *open file
object* to `ConfigParser.read`, so each line of the file is treated as a
filename and (no such files existing) no configuration is ever loaded: on a
metadata file declaring `install_requires = foo==1` both keys still map to
the empty list. -/
theorem C2_setup_cfg_loads_nothing :
    get_requirements_from_setup_cfg (fun _ => none)
      [strList "[options]", strList "install_requires = foo==1"] none =
      [(strList "install_requires", []), (strList "setup_requires", [])] := by decide

/-- C3: the claim (and the function's docstring) says a bare `name` line with
pinning not required yields a `None` version; the code's `version = None`
assignment is dead (it follows the raise), and the `else` branch partitions
the separator-free line, yielding the *empty string* version instead. -/
theorem C3_unpinned_version_is_empty_string :
    get_required_name_versions [strList "foo"] false =
      .ok [(strList "foo", some [])] := by decide

/-- C8: `get_installed_reqs` returns the freeze subprocess's stdout unchanged
when it exits 0, and fails with a process-execution error (never a partial or
empty success) when the executable is missing or exits non-zero. -/
theorem C8_installed_reqs_passthrough :
    (∀ out, get_installed_reqs (.exited 0 out) = .ok out) ∧
    (∀ code out, code ≠ 0 → ∃ e, get_installed_reqs (.exited code out) = .error e) ∧
    (∃ e, get_installed_reqs .missing = .error e) := by
  refine ⟨fun _ => rfl, fun code out hc => ?_, ⟨.fileNotFound, rfl⟩⟩
  cases code with
  | zero => exact absurd rfl hc
  | succ c => exact ⟨.calledProcessError (c + 1), rfl⟩

/-- Witness for C8 at concrete subprocess outcomes. -/
theorem C8_installed_reqs_passthrough_witness :
    get_installed_reqs (.exited 0 (strList "x==1\n")) = .ok (strList "x==1\n") ∧
    (∃ e, get_installed_reqs (.exited 1 (strList "boom")) = .error e) :=
  ⟨C8_installed_reqs_passthrough.1 _,
    C8_installed_reqs_passthrough.2.1 1 (strList "boom") (by decide)⟩

/-- C9: the `extra` argument of `get_requirements_from_setup_cfg` is inert —
for any metadata file and filesystem, any two values of the argument produce
the same mapping (its only other occurrence in the source is as the loop
variable that shadows it). -/
theorem C9_extra_argument_inert (fsLoad : List Char → Option IniConfig)
    (cfgLines : List (List Char)) (e1 e2 : Option (List Char)) :
    get_requirements_from_setup_cfg fsLoad cfgLines e1 =
      get_requirements_from_setup_cfg fsLoad cfgLines e2 := rfl
